import Mathlib

/-!
# Sprite grid decomposition and frame sequencing engine: verification

A shallow embedding of the core algorithms of the sprite-pipeline
repository, together with proofs of the behavioural properties stated in
its specification.

Embedded components:

* `tools/pipeline/phase1_extract.py` — grid assignment of detected cells
  (`assign_cells_to_grid`, `_merge_cells_to_count`);
* `tools/pipeline/frame_order.py` — distance matrix, nearest-neighbour /
  2-opt sequencer and ping-pong cycle selection;
* `tools/pipeline/extract_grid_cells.py` — separator line-centre detection;
* `tools/pipeline/extract_orochi.py` — combinatorial best-line selection;
* `tools/phase56_normalize_assemble.py` — cell normalisation onto a fixed
  canvas.

Python `int` is modelled by `Int` (or `Nat` where the source value is a
count or an index), and Python `float` by `Rat`: every floating-point
value manipulated by the embedded code is produced by field operations on
integer inputs, which `Rat` models exactly.
-/

/-- A detected grid cell in source-image coordinates.  Mirrors the frozen
dataclass `CellInfo` of `tools/pipeline/phase1_extract.py`. -/
structure CellInfo where
  x : Int
  y : Int
  w : Int
  h : Int
  center_x : Rat
  center_y : Rat
deriving DecidableEq

/-- Horizontal gaps between consecutive cells of a row:
`current[j+1].x - (current[j].x + current[j].w)` for each adjacent pair,
as computed inside the merge loop of `_merge_cells_to_count`. -/
def cellGaps (cs : List CellInfo) : List Int :=
  List.zipWith (fun a b => b.x - (a.x + a.w)) cs cs.tail

/-- The scan `for j: if gap < min_gap: min_gap, merge_idx = gap, j` of
`_merge_cells_to_count`: returns the index (and value) of the first
strict minimum, starting from current best `(bi, bv)` with the head of
`l` sitting at absolute index `j`. -/
def argminFirstAux : List Int → Nat → Nat → Int → Nat × Int
  | [], _, bi, bv => (bi, bv)
  | g :: rest, j, bi, bv =>
    if g < bv then argminFirstAux rest (j + 1) j g
    else argminFirstAux rest (j + 1) bi bv

/-- Index of the adjacent pair with the smallest gap (`merge_idx` after
the scan; `0` when there is no pair, matching the Python initialiser). -/
def findMergeIdx (cs : List CellInfo) : Nat :=
  match cellGaps cs with
  | [] => 0
  | g :: rest => (argminFirstAux rest 1 0 g).1

/-- Merge two cells into the single cell spanning both rectangles, with
the centre recomputed from the merged bounds, exactly as in the body of
the merge loop of `_merge_cells_to_count`. -/
def mergeTwo (a b : CellInfo) : CellInfo :=
  let mx := min a.x b.x
  let my := min a.y b.y
  let mx2 := max (a.x + a.w) (b.x + b.w)
  let my2 := max (a.y + a.h) (b.y + b.h)
  { x := mx, y := my, w := mx2 - mx, h := my2 - my,
    center_x := ((mx : Rat) + (mx2 : Rat)) / 2,
    center_y := ((my : Rat) + (my2 : Rat)) / 2 }

/-- Replace the cells at positions `j` and `j + 1` by their merge
(`current[merge_idx:merge_idx+2] = [merged]`).  Out-of-range indices
leave the list unchanged. -/
def mergeAt : List CellInfo → Nat → List CellInfo
  | a :: b :: rest, 0 => mergeTwo a b :: rest
  | c :: rest, j + 1 => c :: mergeAt rest j
  | cs, _ => cs

/-- One iteration of the merge loop: merge the adjacent pair with the
smallest gap. -/
def mergeStep (cs : List CellInfo) : List CellInfo :=
  mergeAt cs (findMergeIdx cs)

/-- The `while len(current) > target` loop of `_merge_cells_to_count`,
with explicit fuel.  For `target ≥ 1` each iteration removes one cell, so
fuel `cs.length` makes the loop reach its exit condition exactly as the
Python loop does.  (In the degenerate case `target = 0` with one cell
left, the Python loop would raise an `IndexError` reading `current[1]`;
there the fuel runs out and the remaining cells are returned — all
claims about the merge assume `target ≥ 1`.) -/
def mergeLoop : Nat → List CellInfo → Nat → List CellInfo
  | 0, cs, _ => cs
  | fuel + 1, cs, target =>
    if target < cs.length then mergeLoop fuel (mergeStep cs) target else cs

/-- `_merge_cells_to_count` of `tools/pipeline/phase1_extract.py`: reduce
a row of cells to `target` cells by repeatedly merging the adjacent pair
with the smallest horizontal gap. -/
def merge_cells_to_count (cells : List CellInfo) (target : Nat) : List CellInfo :=
  mergeLoop cells.length cells target

/-- Stable insertion of a cell into a key-sorted list: the inserted cell
goes before any later cell with an equal key, matching the stability of
Python's `sorted`. -/
def insertByKey (key : CellInfo → Rat) (c : CellInfo) : List CellInfo → List CellInfo
  | [] => [c]
  | d :: rest => if key c ≤ key d then c :: d :: rest else d :: insertByKey key c rest

/-- Stable sort by a rational key, modelling `sorted(cells, key=...)`. -/
def sortByKey (key : CellInfo → Rat) : List CellInfo → List CellInfo
  | [] => []
  | c :: rest => insertByKey key c (sortByKey key rest)

/-- The row-forming loop of `assign_cells_to_grid`: cells already sorted
by `center_y` are grouped into a new row whenever the gap to the previous
cell exceeds `thr`.  `prev` is the previous cell's `center_y`, `cur` the
row being built, `acc` the finished rows. -/
def clusterAux (thr : Rat) : Rat → List CellInfo → List (List CellInfo) →
    List CellInfo → List (List CellInfo)
  | _, cur, acc, [] => acc ++ [cur]
  | prev, cur, acc, c :: rest =>
    if thr < c.center_y - prev then clusterAux thr c.center_y [c] (acc ++ [cur]) rest
    else clusterAux thr c.center_y (cur ++ [c]) acc rest

/-- Gap clustering of y-sorted cells into rows (`ROW_GAP_THRESHOLD`
comparison of `assign_cells_to_grid`). -/
def clusterByGap (thr : Rat) : List CellInfo → List (List CellInfo)
  | [] => []
  | c :: rest => clusterAux thr c.center_y [c] [] rest

/-- `assign_cells_to_grid` of `tools/pipeline/phase1_extract.py`.
`Except.error` models a raised `ValueError`.  The function raises when no
cells were detected, or when the number of row clusters disagrees with
`expected_rows`; otherwise rows with too many cells are reduced by
`merge_cells_to_count` and rows with too few are kept (with a logged
warning in the source). -/
def assign_cells_to_grid (cells : List CellInfo) (expected_rows : Nat)
    (frames_per_row : List Nat) : Except String (List (List CellInfo)) :=
  if cells.isEmpty then .error "No cells detected"
  else
    let sorted_by_y := sortByKey (fun c => c.center_y) cells
    let rows := clusterByGap 200 sorted_by_y
    if rows.length ≠ expected_rows then .error "Row count mismatch"
    else
      let rowsSorted := rows.map (sortByKey (fun c => c.center_x))
      let adjusted := List.zipWith
        (fun row expected =>
          if expected < row.length then merge_cells_to_count row expected else row)
        rowsSorted frames_per_row
      .ok (adjusted ++ rowsSorted.drop frames_per_row.length)

/-- Python's `round`: round half to even (banker's rounding), used by
`select_ping_pong` in `tools/pipeline/frame_order.py`. -/
def pythonRound (q : Rat) : Int :=
  let f := ⌊q⌋
  let frac := q - (f : Rat)
  if frac < 1 / 2 then f
  else if 1 / 2 < frac then f + 1
  else if f % 2 = 0 then f else f + 1

/-- `path_length` of `tools/pipeline/frame_order.py`: sum of the matrix
entries along consecutive path positions.  The distance matrix is
embedded as the function `D` sending an index pair to its entry. -/
def path_length (D : Nat → Nat → Rat) : List Nat → Rat
  | a :: b :: rest => D a b + path_length D (b :: rest)
  | _ => 0

/-- The 2-opt candidate `best[:i] + best[i:j+1][::-1] + best[j+1:]`. -/
def reverseSegment (p : List Nat) (i j : Nat) : List Nat :=
  p.take i ++ ((p.drop i).take (j + 1 - i)).reverse ++ p.drop (j + 1)

/-- The index pairs scanned by the nested loops
`for i in range(1, n-2): for j in range(i+1, n-1)` of `two_opt_improve`,
for a path of length `n` (the length is invariant under reversal, so the
ranges are fixed throughout a pass). -/
def twoOptPairs (n : Nat) : List (Nat × Nat) :=
  (List.range' 1 (n - 3)).flatMap fun i =>
    (List.range' (i + 1) (n - i - 2)).map fun j => (i, j)

/-- The body of the nested loops of `two_opt_improve`: adopt the reversal
candidate exactly when it is strictly shorter, and record the adoption in
the `improved` flag. -/
def twoOptStep (D : Nat → Nat → Rat) (acc : List Nat × Bool) (ij : Nat × Nat) :
    List Nat × Bool :=
  let cand := reverseSegment acc.1 ij.1 ij.2
  if path_length D cand < path_length D acc.1 then (cand, true) else acc

/-- One full sweep of the nested loops of `two_opt_improve`: the current
best path is threaded through every candidate reversal, together with the
`improved` flag. -/
def twoOptPass (D : Nat → Nat → Rat) (p : List Nat) : List Nat × Bool :=
  (twoOptPairs p.length).foldl (twoOptStep D) (p, false)

/-- The `while improved` loop of `two_opt_improve`, with explicit fuel.
Every improving pass strictly decreases the (exactly computed) path
length, and the reachable paths form a finite set, so a large enough fuel
reproduces the Python loop exactly. -/
def twoOptLoop (D : Nat → Nat → Rat) : Nat → List Nat → List Nat
  | 0, p => p
  | fuel + 1, p =>
    let step := twoOptPass D p
    if step.2 then twoOptLoop D fuel step.1 else p

/-- `two_opt_improve` of `tools/pipeline/frame_order.py`.  At most
`path.length !` passes can improve (each strictly shrinks the length of a
path drawn from the finite set of permutations of `path`), so this fuel
makes the loop run to its genuine fixed point. -/
def two_opt_improve (D : Nat → Nat → Rat) (path : List Nat) : List Nat :=
  twoOptLoop D (Nat.factorial path.length + 1) path

/-- The index pairs `i < j < n` scanned by `find_farthest_pair`. -/
def allPairs (n : Nat) : List (Nat × Nat) :=
  (List.range n).flatMap fun i =>
    (List.range' (i + 1) (n - (i + 1))).map fun j => (i, j)

/-- The body of the scan of `find_farthest_pair`: adopt the pair exactly
when its entry strictly exceeds the best seen so far. -/
def farthestStep (D : Nat → Nat → Rat) (acc : (Nat × Nat) × Rat) (ij : Nat × Nat) :
    (Nat × Nat) × Rat :=
  if acc.2 < D ij.1 ij.2 then (ij, D ij.1 ij.2) else acc

/-- `find_farthest_pair` of `tools/pipeline/frame_order.py`: the first
pair attaining the maximal entry, starting from `best = (0, 1)` and
`best_d = -1.0`. -/
def find_farthest_pair (D : Nat → Nat → Rat) (n : Nat) : Nat × Nat :=
  ((allPairs n).foldl (farthestStep D) ((0, 1), -1)).1

/-- One comparison of Python's `min(..., key=...)`: keep the earlier
element on ties. -/
def minByStep (key : Nat → Rat) (b y : Nat) : Nat :=
  if key y < key b then y else b

/-- `min(remaining, key=...)`: first element with minimal key, scanning
`x` then `l`.  The remaining set is modelled as a list in ascending index
order; the Python set's iteration order only influences which of several
equal-key elements is picked. -/
def minByKey (key : Nat → Rat) (x : Nat) (l : List Nat) : Nat :=
  l.foldl (minByStep key) x

/-- The `while remaining` loop of `nearest_neighbor_path`: repeatedly
append the unused index nearest to the current tail.  Fuel
`remaining.length` is exactly the number of iterations. -/
def nnLoop (D : Nat → Nat → Rat) : Nat → Nat → List Nat → List Nat
  | 0, _, _ => []
  | _ + 1, _, [] => []
  | fuel + 1, current, r :: rest =>
    let nearest := minByKey (fun x => D current x) r rest
    nearest :: nnLoop D fuel nearest ((r :: rest).erase nearest)

/-- `nearest_neighbor_path` of `tools/pipeline/frame_order.py`: greedy
path from `start` to `stop` through all remaining indices `< n`. -/
def nearest_neighbor_path (D : Nat → Nat → Rat) (n start stop : Nat) : List Nat :=
  let remaining := (List.range n).filter fun x => x != start && x != stop
  (start :: nnLoop D remaining.length start remaining) ++ [stop]

/-- `order_frames` of `tools/pipeline/frame_order.py`: farthest pair,
then nearest-neighbour seed, then 2-opt improvement. -/
def order_frames (D : Nat → Nat → Rat) (n : Nat) : List Nat :=
  let ac := find_farthest_pair D n
  two_opt_improve D (nearest_neighbor_path D n ac.1 ac.2)

/-- `select_ping_pong` of `tools/pipeline/frame_order.py`: reduce an
ordered path to a loopable key-frame cycle. -/
def select_ping_pong (ordered : List Nat) (cycle_length : Nat) : List Nat :=
  let n := ordered.length
  if n ≤ cycle_length then ordered
  else if cycle_length = 3 then
    let mid := (pythonRound (((n : Rat) - 1) / 2)).toNat
    [ordered.getD 0 0, ordered.getD mid 0, ordered.getD (n - 1) 0]
  else if cycle_length = 4 then
    let b1 := (pythonRound (((n : Rat) - 1) / 3)).toNat
    let b2 := (pythonRound (2 * ((n : Rat) - 1) / 3)).toNat
    [ordered.getD 0 0, ordered.getD b1 0, ordered.getD (n - 1) 0, ordered.getD b2 0]
  else
    let half := cycle_length / 2
    let outbound := (List.range half).map fun k =>
      ordered.getD
        (if 1 < half then
          (pythonRound ((k : Rat) * ((n : Rat) - 1) / ((half : Rat) - 1))).toNat
        else 0) 0
    let inbound := ((List.range (cycle_length - half)).map fun k =>
        ordered.getD
          (pythonRound (((n : Rat) - 1) -
            (k : Rat) * ((n : Rat) - 1) / ((cycle_length - half : Nat) : Rat))).toNat
          0).filter fun idx => !outbound.contains idx
    outbound ++ inbound

/-- Mean absolute difference of two aligned distance-transform fields
(a field is flattened to the list of its pixel values):
`float(np.mean(np.abs(a - b)))` for same-shape arrays. -/
def absDiffMean (a b : List Rat) : Rat :=
  (List.zipWith (fun x y => |x - y|) a b).sum / (a.length : Rat)

/-- `compute_distance_matrix` of `tools/pipeline/frame_order.py`: the
`N×N` matrix with zero diagonal whose `(i, j)` entry, `i ≠ j`, is the
mean absolute difference of fields `i` and `j` (computed once per
unordered pair and written symmetrically). -/
def compute_distance_matrix (dts : List (List Rat)) : List (List Rat) :=
  (List.range dts.length).map fun i =>
    (List.range dts.length).map fun j =>
      if i = j then 0
      else absDiffMean (dts.getD (min i j) []) (dts.getD (max i j) [])

/-- The scanning loop of `_find_line_centers`
(`tools/pipeline/extract_grid_cells.py`, identical in
`tools/pipeline/extract_orochi.py`): walk the thresholded mask emitting
`(start + i) / 2` whenever a run of `True` positions ends, with a final
emission for a run still open at the end of the axis.  `i` is the
absolute index of the head of the remaining list, `inRun`/`start` the
loop state. -/
def findCentersLoop : List Bool → Nat → Bool → Nat → List Nat
  | [], i, inRun, start => if inRun then [(start + i) / 2] else []
  | a :: rest, i, inRun, start =>
    if a && !inRun then findCentersLoop rest (i + 1) true i
    else if !a && inRun then (start + i) / 2 :: findCentersLoop rest (i + 1) false start
    else findCentersLoop rest (i + 1) inRun start

/-- The merge pass of `_find_line_centers`: a centre closer than
`gap` to the previous merged centre is averaged into it, otherwise it
starts a new line.  `last` is `merged[-1]`. -/
def mergeCentersAux (gap : Nat) : Nat → List Nat → List Nat
  | last, [] => [last]
  | last, c :: cs =>
    if (c : Int) - (last : Int) < (gap : Int) then mergeCentersAux gap ((last + c) / 2) cs
    else last :: mergeCentersAux gap c cs

/-- The merge pass of `_find_line_centers` over the whole centre list
(lists of length at most one are returned unchanged, as in the source's
early return). -/
def mergeCenters (gap : Nat) : List Nat → List Nat
  | [] => []
  | c :: rest => mergeCentersAux gap c rest

/-- `_find_line_centers` of `tools/pipeline/extract_grid_cells.py`:
centres of the above-threshold runs of the coverage-ratio profile,
followed by the nearby-centre merge pass (default `merge_gap = 10`). -/
def find_line_centers (ratio : List Rat) (threshold : Rat) (mergeGap : Nat) : List Nat :=
  mergeCenters mergeGap
    (findCentersLoop (ratio.map fun x => decide (threshold < x)) 0 false 0)

/-- The maximal contiguous runs of `true` entries of a mask, written the
way the specification describes them: a run starts at the first `true`
position and extends as long as the mask stays `true`; the pair is
`(start, stop)` with `stop` exclusive.  `i` is the absolute index of the
head. -/
def runsAux : List Bool → Nat → List (Nat × Nat)
  | [], _ => []
  | false :: rest, i => runsAux rest (i + 1)
  | true :: rest, i =>
    (i, i + ((rest.takeWhile (fun b => b)).length + 1)) ::
      runsAux (rest.dropWhile (fun b => b)) (i + ((rest.takeWhile (fun b => b)).length + 1))
termination_by l _ => l.length
decreasing_by
  · simp
  · have h := List.Sublist.length_le (List.dropWhile_sublist (l := rest) (fun b => b))
    simp
    omega

/-- The maximal contiguous runs of a mask, indexed from `0`. -/
def maximalRuns (mask : List Bool) : List (Nat × Nat) :=
  runsAux mask 0

/-- Midpoint of a run, as the specification states it. -/
def runMid (se : Nat × Nat) : Nat :=
  (se.1 + se.2) / 2

/-- `itertools.combinations` in its enumeration order: all
length-`k` sublists of the candidate list, combinations containing the
head first. -/
def combinations : Nat → List Int → List (List Int)
  | 0, _ => [[]]
  | _ + 1, [] => []
  | k + 1, x :: xs => (combinations k xs).map (x :: ·) ++ combinations (k + 1) xs

/-- The interval widths induced by a candidate subset: differences of
consecutive entries of `[0] + list(combo) + [total]`
(`_select_best_lines` of `tools/pipeline/extract_orochi.py`). -/
def intervalWidths (combo : List Int) (total : Int) : List Int :=
  let points := 0 :: (combo ++ [total])
  List.zipWith (fun a b => b - a) points points.tail

/-- `np.var` of a list of integers: population variance (mean squared
deviation from the mean), computed exactly over `Rat`. -/
def varQ (l : List Int) : Rat :=
  let n : Rat := (l.length : Rat)
  let m : Rat := ((l.map fun v => (v : Rat)).sum) / n
  ((l.map fun v => ((v : Rat) - m) ^ 2).sum) / n

/-- The score minimised by `_select_best_lines`: variance of the interval
widths of a candidate subset. -/
def lineScore (combo : List Int) (total : Int) : Rat :=
  varQ (intervalWidths combo total)

/-- `_select_best_lines` of `tools/pipeline/extract_orochi.py`: when more
candidate lines were detected than expected, scan every size-`expected`
combination and keep the first one with strictly smallest interval-width
variance (`best_score` starts at infinity, modelled by `none`, so the
first combination is always adopted); otherwise return the candidates
unchanged. -/
def bestLineStep (total : Int) (acc : List Int × Option Rat) (combo : List Int) :
    List Int × Option Rat :=
  match acc.2 with
  | none => (combo, some (lineScore combo total))
  | some s =>
    if lineScore combo total < s then (combo, some (lineScore combo total)) else acc

/-- The combination scan of `_select_best_lines` over the whole list. -/
def select_best_lines (candidates : List Int) (expected : Nat) (total : Int) : List Int :=
  if candidates.length = expected then candidates
  else if candidates.length < expected then candidates
  else
    ((combinations expected candidates).foldl (bestLineStep total)
      (candidates.take expected, none)).1

/-- An RGBA raster image: a size together with the pixel function
(channel values `(r, g, b, a)`), the shallow embedding of a PIL image. -/
structure ImageRGBA where
  width : Nat
  height : Nat
  px : Nat → Nat → Nat × Nat × Nat × Nat

/-- Alpha channel of a pixel. -/
def pxAlpha (p : Nat × Nat × Nat × Nat) : Nat :=
  p.2.2.2

/-- Coordinates of the pixels with non-zero alpha, row by row. -/
def alphaPoints (img : ImageRGBA) : List (Nat × Nat) :=
  (List.range img.height).flatMap fun y =>
    (List.range img.width).filterMap fun x =>
      if pxAlpha (img.px x y) ≠ 0 then some (x, y) else none

/-- PIL `Image.getbbox` on the alpha channel: the tight bounding box
`(x0, y0, x1, y1)` (right and bottom exclusive) of the non-zero pixels,
or `none` when every pixel is zero. -/
def getbbox (img : ImageRGBA) : Option (Nat × Nat × Nat × Nat) :=
  match alphaPoints img with
  | [] => none
  | p :: ps =>
    some ((ps.map Prod.fst).foldl min p.1,
          (ps.map Prod.snd).foldl min p.2,
          (ps.map Prod.fst).foldl max p.1 + 1,
          (ps.map Prod.snd).foldl max p.2 + 1)

/-- `content_bbox` of `tools/phase56_normalize_assemble.py`: the alpha
bounding box, or the whole image when `getbbox` returns `None`. -/
def content_bbox (img : ImageRGBA) : Nat × Nat × Nat × Nat :=
  (getbbox img).getD (0, 0, img.width, img.height)

/-- PIL `Image.crop` with a box inside the image: pixels are read at the
offset position; positions outside the source read as zero. -/
def crop (img : ImageRGBA) (x0 y0 x1 y1 : Nat) : ImageRGBA :=
  { width := x1 - x0, height := y1 - y0,
    px := fun x y =>
      if x0 + x < img.width ∧ y0 + y < img.height then img.px (x0 + x) (y0 + y)
      else (0, 0, 0, 0) }

/-- PIL `Image.new`: a constant image. -/
def newImage (w h : Nat) (c : Nat × Nat × Nat × Nat) : ImageRGBA :=
  ⟨w, h, fun _ _ => c⟩

/-- One channel of PIL `Image.paste` with a soft mask, modelled as the
rounded convex combination `(a * (255 - m) + b * m) / 255`; a mask value
of `0` keeps the base pixel exactly. -/
def blendChannel (a b m : Nat) : Nat :=
  (a * (255 - m) + b * m + 127) / 255

/-- Blend two pixels under a mask value. -/
def blendPixel (p q : Nat × Nat × Nat × Nat) (m : Nat) : Nat × Nat × Nat × Nat :=
  (blendChannel p.1 q.1 m, blendChannel p.2.1 q.2.1 m,
   blendChannel p.2.2.1 q.2.2.1 m, blendChannel p.2.2.2 q.2.2.2 m)

/-- PIL `base.paste(overlay, (ox, oy), overlay)`: inside the overlay's
footprint each base pixel is blended with the overlay pixel under the
overlay's own alpha as mask; outside it the base is untouched. -/
def paste (base overlay : ImageRGBA) (ox oy : Int) : ImageRGBA :=
  { base with px := fun x y =>
      let sx := (x : Int) - ox
      let sy := (y : Int) - oy
      if 0 ≤ sx ∧ sx < (overlay.width : Int) ∧ 0 ≤ sy ∧ sy < (overlay.height : Int) then
        let q := overlay.px sx.toNat sy.toNat
        blendPixel (base.px x y) q (pxAlpha q)
      else base.px x y }

/-- `normalize_frame` of `tools/phase56_normalize_assemble.py` with the
constants of that file inlined (`CANVAS_SIZE = 80`, `ANCHOR_X = 40`,
`ANCHOR_Y = 54`): crop to the content bounding box, rescale by `scale`
(dimensions rounded, floored at 1), and paste bottom-centre-anchored onto
a fresh transparent 80×80 canvas.  The PIL resampling primitive
`Image.resize(..., LANCZOS)` is an external library call and is passed in
as `resizeFn` (source image, requested width, requested height). -/
def normalize_frame (resizeFn : ImageRGBA → Nat → Nat → ImageRGBA)
    (img : ImageRGBA) (scale : Rat) : ImageRGBA :=
  let bb := content_bbox img
  let x0 := bb.1
  let y0 := bb.2.1
  let x1 := bb.2.2.1
  let y1 := bb.2.2.2
  let content_w := x1 - x0
  let content_h := y1 - y0
  let new_w := max 1 (pythonRound ((content_w : Rat) * scale)).toNat
  let new_h := max 1 (pythonRound ((content_h : Rat) * scale)).toNat
  let cropped := crop img x0 y0 x1 y1
  let scaled := resizeFn cropped new_w new_h
  let canvas := newImage 80 80 (0, 0, 0, 0)
  let paste_x := (40 : Int) - (new_w : Int) / 2
  let paste_y := (54 : Int) - (new_h : Int)
  paste canvas scaled paste_x paste_y

/-! ### Properties of the merge procedure (`_merge_cells_to_count`) -/

theorem cellGaps_length (cs : List CellInfo) : (cellGaps cs).length = cs.length - 1 := by
  cases cs with
  | nil => simp [cellGaps]
  | cons a rest => simp [cellGaps]

theorem mergeAt_length (cs : List CellInfo) (j : Nat) (h : j + 1 < cs.length) :
    (mergeAt cs j).length + 1 = cs.length := by
  induction cs generalizing j with
  | nil => simp at h
  | cons a rest ih =>
    cases j with
    | zero =>
      cases rest with
      | nil => simp at h
      | cons b rest2 => simp [mergeAt]
    | succ k =>
      have hk : k + 1 < rest.length := by simpa using h
      simpa [mergeAt] using ih k hk

theorem argminFirstAux_le (l : List Int) : ∀ j bi bv,
    (argminFirstAux l j bi bv).2 ≤ bv ∧ ∀ g ∈ l, (argminFirstAux l j bi bv).2 ≤ g := by
  induction l with
  | nil =>
    intro j bi bv
    simp [argminFirstAux]
  | cons g rest ih =>
    intro j bi bv
    by_cases hg : g < bv
    · simp only [argminFirstAux, if_pos hg]
      have h := ih (j + 1) j g
      refine ⟨le_trans h.1 (le_of_lt hg), ?_⟩
      intro x hx
      rcases List.mem_cons.mp hx with rfl | hx
      · exact h.1
      · exact h.2 x hx
    · simp only [argminFirstAux, if_neg hg]
      have h := ih (j + 1) bi bv
      refine ⟨h.1, ?_⟩
      intro x hx
      rcases List.mem_cons.mp hx with rfl | hx
      · exact le_trans h.1 (not_lt.mp hg)
      · exact h.2 x hx

theorem argminFirstAux_pos (l : List Int) : ∀ j bi bv,
    ((argminFirstAux l j bi bv).1 = bi ∧ (argminFirstAux l j bi bv).2 = bv) ∨
    ∃ k, ∃ hk : k < l.length, (argminFirstAux l j bi bv).1 = j + k ∧
      (argminFirstAux l j bi bv).2 = l.get ⟨k, hk⟩ := by
  induction l with
  | nil =>
    intro j bi bv
    left
    simp [argminFirstAux]
  | cons g rest ih =>
    intro j bi bv
    by_cases hg : g < bv
    · simp only [argminFirstAux, if_pos hg]
      rcases ih (j + 1) j g with ⟨h1, h2⟩ | ⟨k, hk, h1, h2⟩
      · right
        exact ⟨0, by simp, by simpa using h1, by simpa using h2⟩
      · right
        refine ⟨k + 1, by simpa using Nat.succ_lt_succ hk, ?_, ?_⟩
        · rw [h1]
          omega
        · simpa using h2
    · simp only [argminFirstAux, if_neg hg]
      rcases ih (j + 1) bi bv with ⟨h1, h2⟩ | ⟨k, hk, h1, h2⟩
      · left
        exact ⟨h1, h2⟩
      · right
        refine ⟨k + 1, by simpa using Nat.succ_lt_succ hk, ?_, ?_⟩
        · rw [h1]
          omega
        · simpa using h2

theorem findMergeIdx_lt (cs : List CellInfo) (h : 1 ≤ (cellGaps cs).length) :
    findMergeIdx cs < (cellGaps cs).length := by
  rcases hg : cellGaps cs with _ | ⟨g, rest⟩
  · simp [hg] at h
  · have hfm : findMergeIdx cs = (argminFirstAux rest 1 0 g).1 := by
      simp [findMergeIdx, hg]
    rcases argminFirstAux_pos rest 1 0 g with ⟨h1, _⟩ | ⟨k, hk, h1, _⟩
    · simp [hfm, h1]
    · rw [hfm, h1]
      simp
      omega

theorem findMergeIdx_min (cs : List CellInfo) (g : Int) (hg : g ∈ cellGaps cs) :
    (cellGaps cs).getD (findMergeIdx cs) 0 ≤ g := by
  rcases hgs : cellGaps cs with _ | ⟨g0, rest⟩
  · simp [hgs] at hg
  · have hfm : findMergeIdx cs = (argminFirstAux rest 1 0 g0).1 := by
      simp [findMergeIdx, hgs]
    have hle := argminFirstAux_le rest 1 0 g0
    have hmem : g ∈ g0 :: rest := by rw [← hgs]; exact hg
    have hgle : (argminFirstAux rest 1 0 g0).2 ≤ g := by
      rcases List.mem_cons.mp hmem with rfl | hx
      · exact hle.1
      · exact hle.2 g hx
    rcases argminFirstAux_pos rest 1 0 g0 with ⟨h1, h2⟩ | ⟨k, hk, h1, h2⟩
    · rw [hfm, h1]
      simpa using h2 ▸ hgle
    · rw [hfm, h1]
      have : (g0 :: rest).getD (1 + k) 0 = rest.get ⟨k, hk⟩ := by
        have h1k : 1 + k = k + 1 := by omega
        rw [h1k]
        simp [List.getD, List.getElem?_cons_succ]
        rw [List.getElem?_eq_getElem hk]
        simp
      rw [this, ← h2]
      exact hgle

theorem mergeStep_length (cs : List CellInfo) (h : 2 ≤ cs.length) :
    (mergeStep cs).length + 1 = cs.length := by
  apply mergeAt_length
  have h1 : 1 ≤ (cellGaps cs).length := by
    rw [cellGaps_length]
    omega
  have h2 := findMergeIdx_lt cs h1
  rw [cellGaps_length] at h2
  omega

theorem mergeLoop_length : ∀ (fuel : Nat) (cs : List CellInfo) (target : Nat),
    1 ≤ target → target ≤ cs.length → cs.length ≤ target + fuel →
    (mergeLoop fuel cs target).length = target := by
  intro fuel
  induction fuel with
  | zero =>
    intro cs t _ h2 h3
    simp only [mergeLoop]
    omega
  | succ f ih =>
    intro cs t h1 h2 h3
    simp only [mergeLoop]
    by_cases hlt : t < cs.length
    · rw [if_pos hlt]
      have hms := mergeStep_length cs (by omega)
      exact ih _ _ h1 (by omega) (by omega)
    · rw [if_neg hlt]
      omega

theorem merge_cells_to_count_length (cells : List CellInfo) (target : Nat)
    (h1 : 1 ≤ target) (h2 : target ≤ cells.length) :
    (merge_cells_to_count cells target).length = target :=
  mergeLoop_length cells.length cells target h1 h2 (by omega)

/-- C1 (counterexample): a single detected cell is a non-empty input, yet
`assign_cells_to_grid` raises (returns a structural error) when the
expected row count is 2, because the row-cluster count check fails —
contradicting the claim that for every non-empty cell list the function
returns normally. -/
theorem assign_cells_nonempty_raises :
    assign_cells_to_grid [⟨0, 0, 8, 8, 4, 4⟩] 2 [1, 1] =
      Except.error "Row count mismatch" := by
  rfl

/-- C1 (amended): for per-row expected counts of at least one frame, the
Grid Assigner raises a structural error if and only if the input cell
list is empty or the y-gap row clustering produces a number of rows
different from `expected_rows`; in every other case — including any
per-row column-count mismatch — it returns normally (excess cells
merged, missing cells kept with a warning). -/
theorem assign_cells_error_iff (cells : List CellInfo) (expected_rows : Nat)
    (frames_per_row : List Nat) (_hfpr : ∀ e ∈ frames_per_row, 1 ≤ e) :
    (∃ e, assign_cells_to_grid cells expected_rows frames_per_row = Except.error e) ↔
      (cells = [] ∨
        (clusterByGap 200 (sortByKey (fun c => c.center_y) cells)).length ≠
          expected_rows) := by
  unfold assign_cells_to_grid
  by_cases h1 : cells.isEmpty
  · have : cells = [] := List.isEmpty_iff.mp h1
    simp [h1, this]
  · have hne : ¬cells = [] := fun h => h1 (List.isEmpty_iff.mpr h)
    by_cases h2 : (clusterByGap 200 (sortByKey (fun c => c.center_y) cells)).length =
        expected_rows
    · simp [h1, h2, hne]
    · simp [h1, h2, hne]

/-- C1 (witness): a single detected cell with one expected row of one
frame is assigned without raising. -/
theorem assign_cells_error_iff_witness :
    (∀ e ∈ ([1] : List Nat), 1 ≤ e) ∧
      ¬ (∃ e, assign_cells_to_grid [⟨0, 0, 8, 8, 4, 4⟩] 1 [1] = Except.error e) :=
  ⟨by decide, fun hex => by
    have hd := (assign_cells_error_iff [⟨0, 0, 8, 8, 4, 4⟩] 1 [1] (by decide)).mp hex
    revert hd
    decide⟩

/-- C2: whenever a row holds more detected cells than expected
(`expected ≥ 1`), the merge procedure returns exactly `expected` cells;
at each step the merged index is a valid adjacent pair attaining the
minimal horizontal gap; and a merged cell's rectangle covers both
rectangles it replaces. -/
theorem merge_cells_spec (cells : List CellInfo) (target : Nat)
    (h1 : 1 ≤ target) (h2 : target < cells.length) :
    (merge_cells_to_count cells target).length = target ∧
    (∀ cs : List CellInfo, 1 ≤ (cellGaps cs).length →
      findMergeIdx cs < (cellGaps cs).length ∧
      ∀ g ∈ cellGaps cs, (cellGaps cs).getD (findMergeIdx cs) 0 ≤ g) ∧
    (∀ a b : CellInfo,
      (mergeTwo a b).x ≤ a.x ∧ (mergeTwo a b).y ≤ a.y ∧
      a.x + a.w ≤ (mergeTwo a b).x + (mergeTwo a b).w ∧
      a.y + a.h ≤ (mergeTwo a b).y + (mergeTwo a b).h ∧
      (mergeTwo a b).x ≤ b.x ∧ (mergeTwo a b).y ≤ b.y ∧
      b.x + b.w ≤ (mergeTwo a b).x + (mergeTwo a b).w ∧
      b.y + b.h ≤ (mergeTwo a b).y + (mergeTwo a b).h) := by
  refine ⟨merge_cells_to_count_length cells target h1 (le_of_lt h2), ?_, ?_⟩
  · intro cs hcs
    exact ⟨findMergeIdx_lt cs hcs, fun g hg => findMergeIdx_min cs g hg⟩
  · intro a b
    simp only [mergeTwo]
    omega

/-- C2 (witness): the merge procedure applied to three concrete cells
with expected count 2. -/
theorem merge_cells_spec_witness :
    1 ≤ 2 ∧ 2 < 3 ∧
      (merge_cells_to_count
        [⟨0, 0, 10, 10, 5, 5⟩, ⟨12, 0, 10, 10, 17, 5⟩, ⟨40, 0, 10, 10, 45, 5⟩]
        2).length = 2 :=
  ⟨by norm_num, by norm_num,
    (merge_cells_spec
      [⟨0, 0, 10, 10, 5, 5⟩, ⟨12, 0, 10, 10, 17, 5⟩, ⟨40, 0, 10, 10, 45, 5⟩] 2
      (by norm_num) (by norm_num)).1⟩

/-! ### Properties of the 2-opt sequencer -/

theorem twoOptStep_le (D : Nat → Nat → Rat) (acc : List Nat × Bool) (ij : Nat × Nat) :
    path_length D (twoOptStep D acc ij).1 ≤ path_length D acc.1 := by
  unfold twoOptStep
  by_cases hc : path_length D (reverseSegment acc.1 ij.1 ij.2) < path_length D acc.1
  · simp only [if_pos hc]
    exact le_of_lt hc
  · simp only [if_neg hc]
    exact le_refl _

theorem foldl_twoOptStep_le (D : Nat → Nat → Rat) :
    ∀ (prs : List (Nat × Nat)) (acc : List Nat × Bool),
      path_length D ((prs.foldl (twoOptStep D) acc).1) ≤ path_length D acc.1 := by
  intro prs
  induction prs with
  | nil =>
    intro acc
    simp
  | cons ij rest ih =>
    intro acc
    simp only [List.foldl_cons]
    exact le_trans (ih (twoOptStep D acc ij)) (twoOptStep_le D acc ij)

theorem twoOptPass_le (D : Nat → Nat → Rat) (p : List Nat) :
    path_length D (twoOptPass D p).1 ≤ path_length D p := by
  simpa using foldl_twoOptStep_le D (twoOptPairs p.length) (p, false)

theorem twoOptLoop_le (D : Nat → Nat → Rat) :
    ∀ (fuel : Nat) (p : List Nat),
      path_length D (twoOptLoop D fuel p) ≤ path_length D p := by
  intro fuel
  induction fuel with
  | zero =>
    intro p
    simp [twoOptLoop]
  | succ f ih =>
    intro p
    simp only [twoOptLoop]
    by_cases hs : (twoOptPass D p).2 = true
    · rw [if_pos hs]
      exact le_trans (ih _) (twoOptPass_le D p)
    · rw [if_neg hs]

/-- C3: the 2-opt improvement phase never increases the total path length
of its input path; in particular the improved path is never longer than
the nearest-neighbour seed path it is applied to. -/
theorem two_opt_improve_le (D : Nat → Nat → Rat) (p : List Nat) :
    path_length D (two_opt_improve D p) ≤ path_length D p ∧
    ∀ n a c : Nat,
      path_length D (two_opt_improve D (nearest_neighbor_path D n a c)) ≤
        path_length D (nearest_neighbor_path D n a c) :=
  ⟨twoOptLoop_le D _ p, fun _ _ _ => twoOptLoop_le D _ _⟩

/-! ### Properties of the distance matrix -/

theorem zipWith_absdiff_nonneg :
    ∀ (a b : List Rat), ∀ x ∈ List.zipWith (fun u v => |u - v|) a b, 0 ≤ x := by
  intro a
  induction a with
  | nil =>
    intro b x hx
    simp at hx
  | cons u rest ih =>
    intro b x hx
    cases b with
    | nil => simp at hx
    | cons v brest =>
      rcases List.mem_cons.mp (by simpa using hx) with rfl | hx2
      · exact abs_nonneg _
      · exact ih brest x hx2

theorem absDiffMean_nonneg (a b : List Rat) : 0 ≤ absDiffMean a b := by
  unfold absDiffMean
  exact div_nonneg (List.sum_nonneg (zipWith_absdiff_nonneg a b)) (Nat.cast_nonneg _)

theorem getD_map_range {α : Type} (n : Nat) (f : Nat → α) (d : α) (i : Nat) :
    ((List.range n).map f).getD i d = if i < n then f i else d := by
  by_cases h : i < n
  · rw [List.getD_eq_getElem?_getD, List.getElem?_map,
      List.getElem?_eq_getElem (by simpa using h)]
    simp [h]
  · rw [List.getD_eq_getElem?_getD, List.getElem?_map,
      List.getElem?_eq_none (by simpa using h)]
    simp [h]

theorem compute_distance_matrix_entry (dts : List (List Rat)) (i j : Nat) :
    ((compute_distance_matrix dts).getD i []).getD j 0 =
      if i < dts.length ∧ j < dts.length then
        (if i = j then 0
         else absDiffMean (dts.getD (min i j) []) (dts.getD (max i j) []))
      else 0 := by
  unfold compute_distance_matrix
  rw [getD_map_range]
  by_cases hi : i < dts.length
  · rw [if_pos hi, getD_map_range]
    by_cases hj : j < dts.length
    · rw [if_pos hj]
      simp [hi, hj]
    · rw [if_neg hj]
      simp [hi, hj]
  · rw [if_neg hi]
    simp [hi]

/-- C4: for any list of `N` aligned distance-transform fields, the
computed distance matrix is `N×N`, has zero diagonal, is symmetric, and
has only non-negative entries (entries are read with `getD`, which
returns the written entry inside the `N×N` range). -/
theorem compute_distance_matrix_props (dts : List (List Rat)) :
    (compute_distance_matrix dts).length = dts.length ∧
    (∀ row ∈ compute_distance_matrix dts, row.length = dts.length) ∧
    (∀ i, ((compute_distance_matrix dts).getD i []).getD i 0 = 0) ∧
    (∀ i j, ((compute_distance_matrix dts).getD i []).getD j 0 =
      ((compute_distance_matrix dts).getD j []).getD i 0) ∧
    (∀ i j, 0 ≤ ((compute_distance_matrix dts).getD i []).getD j 0) := by
  refine ⟨by simp [compute_distance_matrix], ?_, ?_, ?_, ?_⟩
  · intro row hrow
    rcases List.mem_map.mp hrow with ⟨i, _, rfl⟩
    simp
  · intro i
    rw [compute_distance_matrix_entry]
    by_cases hi : i < dts.length
    · simp [hi]
    · simp [hi]
  · intro i j
    rw [compute_distance_matrix_entry, compute_distance_matrix_entry]
    by_cases hij : i = j
    · simp [hij]
    · have hji : ¬j = i := fun h => hij h.symm
      by_cases hi : i < dts.length
      · by_cases hj : j < dts.length
        · simp [hi, hj, hij, hji, min_comm i j, max_comm i j]
        · simp [hi, hj]
      · simp [hi]
  · intro i j
    rw [compute_distance_matrix_entry]
    by_cases h : i < dts.length ∧ j < dts.length
    · rw [if_pos h]
      by_cases hij : i = j
      · simp [hij]
      · rw [if_neg hij]
        exact absDiffMean_nonneg _ _
    · simp [if_neg h]

/-! ### The sequencer output is a permutation -/

theorem foldl_minByStep_mem (key : Nat → Rat) :
    ∀ (l : List Nat) (x : Nat), l.foldl (minByStep key) x ∈ x :: l := by
  intro l
  induction l with
  | nil =>
    intro x
    simp
  | cons y rest ih =>
    intro x
    simp only [List.foldl_cons]
    by_cases hc : key y < key x
    · rw [show minByStep key x y = y from by simp [minByStep, hc]]
      exact List.mem_cons_of_mem x (ih y)
    · rw [show minByStep key x y = x from by simp [minByStep, hc]]
      rcases List.mem_cons.mp (ih x) with heq | h2
      · rw [heq]
        exact List.mem_cons_self _ _
      · exact List.mem_cons_of_mem x (List.mem_cons_of_mem y h2)

theorem minByKey_mem (key : Nat → Rat) (x : Nat) (l : List Nat) :
    minByKey key x l ∈ x :: l :=
  foldl_minByStep_mem key l x

theorem nnLoop_perm (D : Nat → Nat → Rat) :
    ∀ (fuel : Nat) (r : List Nat) (c : Nat), r.length ≤ fuel →
      (nnLoop D fuel c r).Perm r := by
  intro fuel
  induction fuel with
  | zero =>
    intro r c h
    have hr : r = [] := List.eq_nil_of_length_eq_zero (by omega)
    subst hr
    simp [nnLoop]
  | succ f ih =>
    intro r c h
    cases r with
    | nil => simp [nnLoop]
    | cons a rest =>
      simp only [nnLoop]
      have hmem : minByKey (fun x => D c x) a rest ∈ a :: rest := minByKey_mem _ a rest
      have herase := List.length_erase_of_mem hmem
      have hpos := List.length_pos_of_mem hmem
      have hlen : ((a :: rest).erase (minByKey (fun x => D c x) a rest)).length ≤ f := by
        simp only [List.length_cons] at h herase hpos ⊢
        omega
      have hperm := ih ((a :: rest).erase (minByKey (fun x => D c x) a rest))
        (minByKey (fun x => D c x) a rest) hlen
      exact (hperm.cons _).trans (List.perm_cons_erase hmem).symm

theorem nearest_neighbor_path_perm (D : Nat → Nat → Rat) (n start stop : Nat)
    (hs : start < n) (ht : stop < n) (hne : start ≠ stop) :
    (nearest_neighbor_path D n start stop).Perm (List.range n) := by
  unfold nearest_neighbor_path
  have hloop := nnLoop_perm D
    ((List.range n).filter (fun x => x != start && x != stop)).length
    ((List.range n).filter (fun x => x != start && x != stop)) start (le_refl _)
  have h1 : (List.range n).Perm (start :: (List.range n).erase start) :=
    List.perm_cons_erase (List.mem_range.mpr hs)
  have hstopmem : stop ∈ (List.range n).erase start :=
    (List.mem_erase_of_ne (Ne.symm hne)).mpr (List.mem_range.mpr ht)
  have h2 : ((List.range n).erase start).Perm
      (stop :: (((List.range n).erase start).erase stop)) :=
    List.perm_cons_erase hstopmem
  have h3 : ((List.range n).erase start).erase stop =
      (List.range n).filter (fun x => x != start && x != stop) := by
    rw [List.Nodup.erase_eq_filter (List.nodup_range n) start]
    rw [List.Nodup.erase_eq_filter ((List.nodup_range n).filter _) stop]
    rw [List.filter_filter]
    exact List.filter_congr fun x _ => Bool.and_comm _ _
  have hmain : ((start :: nnLoop D
      ((List.range n).filter (fun x => x != start && x != stop)).length start
      ((List.range n).filter (fun x => x != start && x != stop))) ++ [stop]).Perm
      (List.range n) := by
    rw [List.cons_append]
    refine ((List.perm_append_singleton _ _).cons start).trans ?_
    refine ((hloop.cons stop).cons start).trans ?_
    rw [← h3]
    exact (h2.symm.cons start).trans h1.symm
  exact hmain

theorem allPairs_mem (n : Nat) (ij : Nat × Nat) (h : ij ∈ allPairs n) :
    ij.1 < ij.2 ∧ ij.2 < n := by
  unfold allPairs at h
  rcases List.mem_flatMap.mp h with ⟨i, hi, hj⟩
  rcases List.mem_map.mp hj with ⟨j, hjr, rfl⟩
  have hi' := List.mem_range.mp hi
  have hj' := List.mem_range'_1.mp hjr
  refine ⟨?_, ?_⟩ <;> dsimp only <;> omega

theorem twoOptPairs_mem (n : Nat) (ij : Nat × Nat) (h : ij ∈ twoOptPairs n) :
    1 ≤ ij.1 ∧ ij.1 < ij.2 ∧ ij.2 + 1 < n := by
  unfold twoOptPairs at h
  rcases List.mem_flatMap.mp h with ⟨i, hi, hj⟩
  rcases List.mem_map.mp hj with ⟨j, hjr, rfl⟩
  have hi' := List.mem_range'_1.mp hi
  have hj' := List.mem_range'_1.mp hjr
  refine ⟨?_, ?_, ?_⟩ <;> dsimp only <;> omega

theorem foldl_farthestStep_bounds (D : Nat → Nat → Rat) (n : Nat) :
    ∀ (prs : List (Nat × Nat)) (acc : (Nat × Nat) × Rat),
      (∀ ij ∈ prs, ij.1 < ij.2 ∧ ij.2 < n) →
      acc.1.1 < acc.1.2 → acc.1.2 < n →
      (prs.foldl (farthestStep D) acc).1.1 < (prs.foldl (farthestStep D) acc).1.2 ∧
        (prs.foldl (farthestStep D) acc).1.2 < n := by
  intro prs
  induction prs with
  | nil =>
    intro acc _ h1 h2
    exact ⟨h1, h2⟩
  | cons ij rest ih =>
    intro acc hmem h1 h2
    simp only [List.foldl_cons]
    have hij := hmem ij (List.mem_cons_self _ _)
    by_cases hc : acc.2 < D ij.1 ij.2
    · exact ih _ (fun x hx => hmem x (List.mem_cons_of_mem _ hx))
        (by simpa [farthestStep, hc] using hij.1)
        (by simpa [farthestStep, hc] using hij.2)
    · exact ih _ (fun x hx => hmem x (List.mem_cons_of_mem _ hx))
        (by simpa [farthestStep, hc] using h1)
        (by simpa [farthestStep, hc] using h2)

theorem find_farthest_pair_bounds (D : Nat → Nat → Rat) (n : Nat) (hn : 2 ≤ n) :
    (find_farthest_pair D n).1 < (find_farthest_pair D n).2 ∧
      (find_farthest_pair D n).2 < n := by
  unfold find_farthest_pair
  exact foldl_farthestStep_bounds D n (allPairs n) ((0, 1), -1)
    (fun ij h => allPairs_mem n ij h) (by decide) hn

theorem reverseSegment_perm (p : List Nat) (i j : Nat) (hij : i ≤ j) :
    (reverseSegment p i j).Perm p := by
  unfold reverseSegment
  have hsplit : (p.drop i).take (j + 1 - i) ++ p.drop (j + 1) = p.drop i := by
    have h1 : (p.drop i).drop (j + 1 - i) = p.drop (j + 1) := by
      rw [List.drop_drop]
      congr 1
      omega
    conv_rhs => rw [← List.take_append_drop (j + 1 - i) (p.drop i)]
    rw [h1]
  rw [List.append_assoc]
  refine (((List.reverse_perm _).append_right _).append_left _).trans ?_
  rw [hsplit, List.take_append_drop]

theorem foldl_twoOptStep_perm (D : Nat → Nat → Rat) :
    ∀ (prs : List (Nat × Nat)) (acc : List Nat × Bool),
      (∀ ij ∈ prs, ij.1 ≤ ij.2) →
      ((prs.foldl (twoOptStep D) acc).1).Perm acc.1 := by
  intro prs
  induction prs with
  | nil =>
    intro acc _
    simp
  | cons ij rest ih =>
    intro acc hmem
    simp only [List.foldl_cons]
    have hstep : ((twoOptStep D acc ij).1).Perm acc.1 := by
      unfold twoOptStep
      by_cases hc : path_length D (reverseSegment acc.1 ij.1 ij.2) < path_length D acc.1
      · simp only [if_pos hc]
        exact reverseSegment_perm acc.1 ij.1 ij.2 (hmem ij (List.mem_cons_self _ _))
      · simp only [if_neg hc]
        exact List.Perm.refl _
    exact (ih _ (fun x hx => hmem x (List.mem_cons_of_mem _ hx))).trans hstep

theorem twoOptPass_perm (D : Nat → Nat → Rat) (p : List Nat) :
    ((twoOptPass D p).1).Perm p := by
  have h := foldl_twoOptStep_perm D (twoOptPairs p.length) (p, false)
    (fun ij hm => le_of_lt (twoOptPairs_mem p.length ij hm).2.1)
  simpa [twoOptPass] using h

theorem twoOptLoop_perm (D : Nat → Nat → Rat) :
    ∀ (fuel : Nat) (p : List Nat), (twoOptLoop D fuel p).Perm p := by
  intro fuel
  induction fuel with
  | zero =>
    intro p
    simp [twoOptLoop]
  | succ f ih =>
    intro p
    simp only [twoOptLoop]
    by_cases hs : (twoOptPass D p).2 = true
    · rw [if_pos hs]
      exact (ih _).trans (twoOptPass_perm D p)
    · rw [if_neg hs]

/-- C5 (counterexample): on the 1×1 distance matrix — identically zero,
hence symmetric, non-negative, zero diagonal — the sequencer's result is
`[0, 1]`, which is not a permutation of `0..0`.  (On this same input the
Python source raises an `IndexError` reading `D[0][1]`, so it does not
return a permutation there either.) -/
theorem order_frames_not_perm_one :
    ¬ (order_frames (fun _ _ => (0 : Rat)) 1).Perm (List.range 1) := by
  decide

/-- C5 (amended): for every distance matrix (embedded as its entry
function) over N ≥ 2 frames, `order_frames` returns a permutation of the
indices `0..N-1`. -/
theorem order_frames_perm (D : Nat → Nat → Rat) (n : Nat) (hn : 2 ≤ n) :
    (order_frames D n).Perm (List.range n) := by
  unfold order_frames two_opt_improve
  obtain ⟨h1, h2⟩ := find_farthest_pair_bounds D n hn
  have hnn := nearest_neighbor_path_perm D n (find_farthest_pair D n).1
    (find_farthest_pair D n).2 (by omega) h2 (by omega)
  exact (twoOptLoop_perm D _ _).trans hnn

/-- C5 (witness): the amended theorem applied to the 2×2 zero matrix. -/
theorem order_frames_perm_witness :
    2 ≤ 2 ∧ (order_frames (fun _ _ => (0 : Rat)) 2).Perm (List.range 2) :=
  ⟨le_refl 2, order_frames_perm (fun _ _ => (0 : Rat)) 2 (le_refl 2)⟩

/-! ### The 2-opt improvement never moves the path endpoints -/

theorem reverseSegment_length (p : List Nat) (i j : Nat) (hij : i ≤ j)
    (hj : j + 1 ≤ p.length) : (reverseSegment p i j).length = p.length := by
  simp [reverseSegment]
  omega

theorem reverseSegment_head? (p : List Nat) (i j : Nat) (hi : 1 ≤ i) :
    (reverseSegment p i j).head? = p.head? := by
  cases p with
  | nil => simp [reverseSegment]
  | cons a rest =>
    unfold reverseSegment
    obtain ⟨k, rfl⟩ : ∃ k, i = k + 1 := ⟨i - 1, by omega⟩
    rw [List.take_succ_cons]
    simp

theorem getLast?_drop_of_lt (p : List Nat) : ∀ (k : Nat), k < p.length →
    (p.drop k).getLast? = p.getLast? := by
  induction p with
  | nil =>
    intro k h
    simp at h
  | cons a rest ih =>
    intro k h
    cases k with
    | zero => simp
    | succ m =>
      have hm : m < rest.length := by simpa using h
      rw [List.drop_succ_cons, ih m hm]
      cases rest with
      | nil => simp at hm
      | cons b rest2 => exact (List.getLast?_cons_cons ..).symm

theorem reverseSegment_getLast? (p : List Nat) (i j : Nat) (hj : j + 1 < p.length) :
    (reverseSegment p i j).getLast? = p.getLast? := by
  unfold reverseSegment
  have hd : p.drop (j + 1) ≠ [] := by
    intro hnil
    have hlen := congrArg List.length hnil
    simp at hlen
    omega
  rw [List.getLast?_append_of_ne_nil _ hd]
  exact getLast?_drop_of_lt p (j + 1) hj

theorem foldl_twoOptStep_ends (D : Nat → Nat → Rat) (n : Nat) :
    ∀ (prs : List (Nat × Nat)) (acc : List Nat × Bool),
      (∀ ij ∈ prs, 1 ≤ ij.1 ∧ ij.1 < ij.2 ∧ ij.2 + 1 < n) →
      acc.1.length = n →
      (prs.foldl (twoOptStep D) acc).1.length = n ∧
      (prs.foldl (twoOptStep D) acc).1.head? = acc.1.head? ∧
      (prs.foldl (twoOptStep D) acc).1.getLast? = acc.1.getLast? := by
  intro prs
  induction prs with
  | nil =>
    intro acc _ hlen
    exact ⟨hlen, rfl, rfl⟩
  | cons ij rest ih =>
    intro acc hmem hlen
    simp only [List.foldl_cons]
    have hij := hmem ij (List.mem_cons_self _ _)
    have hstep : (twoOptStep D acc ij).1.length = n ∧
        (twoOptStep D acc ij).1.head? = acc.1.head? ∧
        (twoOptStep D acc ij).1.getLast? = acc.1.getLast? := by
      unfold twoOptStep
      by_cases hc : path_length D (reverseSegment acc.1 ij.1 ij.2) < path_length D acc.1
      · simp only [if_pos hc]
        refine ⟨?_, ?_, ?_⟩
        · rw [reverseSegment_length acc.1 ij.1 ij.2 (by omega) (by omega)]
          exact hlen
        · exact reverseSegment_head? acc.1 ij.1 ij.2 hij.1
        · exact reverseSegment_getLast? acc.1 ij.1 ij.2 (by omega)
      · rw [if_neg hc]
        exact ⟨hlen, rfl, rfl⟩
    have hrec := ih (twoOptStep D acc ij)
      (fun x hx => hmem x (List.mem_cons_of_mem _ hx)) hstep.1
    exact ⟨hrec.1, hrec.2.1.trans hstep.2.1, hrec.2.2.trans hstep.2.2⟩

theorem twoOptPass_ends (D : Nat → Nat → Rat) (p : List Nat) :
    (twoOptPass D p).1.length = p.length ∧
    (twoOptPass D p).1.head? = p.head? ∧
    (twoOptPass D p).1.getLast? = p.getLast? := by
  have h := foldl_twoOptStep_ends D p.length (twoOptPairs p.length) (p, false)
    (fun ij hm => twoOptPairs_mem p.length ij hm) rfl
  simpa [twoOptPass] using h

theorem twoOptLoop_ends (D : Nat → Nat → Rat) :
    ∀ (fuel : Nat) (p : List Nat),
      (twoOptLoop D fuel p).head? = p.head? ∧
      (twoOptLoop D fuel p).getLast? = p.getLast? := by
  intro fuel
  induction fuel with
  | zero =>
    intro p
    simp [twoOptLoop]
  | succ f ih =>
    intro p
    simp only [twoOptLoop]
    by_cases hs : (twoOptPass D p).2 = true
    · rw [if_pos hs]
      have hp := twoOptPass_ends D p
      have hr := ih (twoOptPass D p).1
      exact ⟨hr.1.trans hp.2.1, hr.2.trans hp.2.2⟩
    · rw [if_neg hs]
      exact ⟨rfl, rfl⟩

/-- C10: for every distance matrix and every path with at least two
entries, the 2-opt improvement returns a path with the same first and
same last element as its input, so the chosen endpoints are never moved
and the ping-pong selection's `path[0]` and `path[-1]` remain the
extreme poses. -/
theorem two_opt_improve_ends (D : Nat → Nat → Rat) (p : List Nat)
    (_hp : 2 ≤ p.length) :
    (two_opt_improve D p).head? = p.head? ∧
    (two_opt_improve D p).getLast? = p.getLast? :=
  twoOptLoop_ends D _ p

/-- C10 (witness): the endpoint-preservation theorem applied to a
concrete three-frame path under the zero matrix. -/
theorem two_opt_improve_ends_witness :
    2 ≤ ([5, 6, 7] : List Nat).length ∧
      (two_opt_improve (fun _ _ => (0 : Rat)) [5, 6, 7]).head? = some 5 ∧
      (two_opt_improve (fun _ _ => (0 : Rat)) [5, 6, 7]).getLast? = some 7 := by
  refine ⟨by norm_num, ?_, ?_⟩
  · exact ((two_opt_improve_ends (fun _ _ => (0 : Rat)) [5, 6, 7] (by norm_num)).1).trans rfl
  · exact ((two_opt_improve_ends (fun _ _ => (0 : Rat)) [5, 6, 7] (by norm_num)).2).trans rfl

/-! ### Ping-pong cycle selection -/

theorem pythonRound_natCast (k : Nat) : pythonRound ((k : Rat)) = (k : Int) := by
  simp only [pythonRound]
  rw [Int.floor_natCast]
  have hfrac : (k : Rat) - ((k : Int) : Rat) = 0 := by
    push_cast
    ring
  rw [hfrac]
  norm_num

theorem pythonRound_natCast_add_third (k : Nat) :
    pythonRound ((k : Rat) + 1 / 3) = (k : Int) := by
  simp only [pythonRound]
  have h13 : (⌊(1 / 3 : Rat)⌋ : Int) = 0 := by
    rw [Int.floor_eq_zero_iff]
    constructor <;> norm_num
  have hf : ⌊(k : Rat) + 1 / 3⌋ = (k : Int) := by
    rw [Int.floor_nat_add]
    omega
  rw [hf]
  have hfrac : (k : Rat) + 1 / 3 - ((k : Int) : Rat) = 1 / 3 := by
    push_cast
    ring
  rw [hfrac]
  norm_num

theorem pythonRound_natCast_add_two_thirds (k : Nat) :
    pythonRound ((k : Rat) + 2 / 3) = (k : Int) + 1 := by
  simp only [pythonRound]
  have h23 : (⌊(2 / 3 : Rat)⌋ : Int) = 0 := by
    rw [Int.floor_eq_zero_iff]
    constructor <;> norm_num
  have hf : ⌊(k : Rat) + 2 / 3⌋ = (k : Int) := by
    rw [Int.floor_nat_add]
    omega
  rw [hf]
  have hfrac : (k : Rat) + 2 / 3 - ((k : Int) : Rat) = 2 / 3 := by
    push_cast
    ring
  rw [hfrac]
  norm_num

theorem pythonRound_nat_div_three (m : Nat) :
    pythonRound ((m : Rat) / 3) = (((m + 1) / 3 : Nat) : Int) := by
  obtain ⟨q, r, hm, hr⟩ : ∃ q r, m = 3 * q + r ∧ r < 3 :=
    ⟨m / 3, m % 3, by omega, by omega⟩
  subst hm
  interval_cases r
  · have he : ((3 * q + 0 : Nat) : Rat) / 3 = ((q : Nat) : Rat) := by
      push_cast
      ring
    rw [he, pythonRound_natCast, show (3 * q + 0 + 1) / 3 = q from by omega]
  · have he : ((3 * q + 1 : Nat) : Rat) / 3 = ((q : Nat) : Rat) + 1 / 3 := by
      push_cast
      ring
    rw [he, pythonRound_natCast_add_third, show (3 * q + 1 + 1) / 3 = q from by omega]
  · have he : ((3 * q + 2 : Nat) : Rat) / 3 = ((q : Nat) : Rat) + 2 / 3 := by
      push_cast
      ring
    rw [he, pythonRound_natCast_add_two_thirds,
      show (3 * q + 2 + 1) / 3 = q + 1 from by omega]
    push_cast
    ring

theorem select_ping_pong_four_eq (ordered : List Nat) (h : 4 < ordered.length) :
    select_ping_pong ordered 4 =
      [ordered.getD 0 0, ordered.getD (ordered.length / 3) 0,
       ordered.getD (ordered.length - 1) 0,
       ordered.getD ((2 * ordered.length - 1) / 3) 0] := by
  simp only [select_ping_pong]
  rw [if_neg (by omega : ¬ ordered.length ≤ 4)]
  rw [if_neg (by norm_num : ¬ (4 : Nat) = 3)]
  rw [if_pos trivial]
  have h1n : 1 ≤ ordered.length := by omega
  have e1 : ((ordered.length : Rat) - 1) = (((ordered.length - 1 : Nat)) : Rat) := by
    rw [Nat.cast_sub h1n]
    norm_num
  have hb1 : (pythonRound (((ordered.length : Rat) - 1) / 3)).toNat =
      ordered.length / 3 := by
    rw [e1, pythonRound_nat_div_three, Int.toNat_natCast]
    congr 1
    omega
  have hb2 : (pythonRound (2 * ((ordered.length : Rat) - 1) / 3)).toNat =
      (2 * ordered.length - 1) / 3 := by
    have e2 : 2 * ((ordered.length : Rat) - 1) =
        (((2 * (ordered.length - 1) : Nat)) : Rat) := by
      rw [e1]
      push_cast
      ring
    rw [e2, pythonRound_nat_div_three, Int.toNat_natCast]
    omega
  rw [hb1, hb2]

/-- C6: with cycle length 4 and an ordered path longer than 4 entries,
`select_ping_pong` returns exactly `[path[0], path[round((N-1)/3)],
path[N-1], path[round(2(N-1)/3)]]`, the rounded positions evaluating to
`N/3` and `(2N-1)/3`; in particular on any duplicate-free path of length
7 it returns 4 distinct indices including `path[0]` and `path[6]`. -/
theorem select_ping_pong_four (ordered : List Nat) (h : 4 < ordered.length) :
    select_ping_pong ordered 4 =
      [ordered.getD 0 0, ordered.getD (ordered.length / 3) 0,
       ordered.getD (ordered.length - 1) 0,
       ordered.getD ((2 * ordered.length - 1) / 3) 0] ∧
    (∀ p : List Nat, p.length = 7 → p.Nodup →
      (select_ping_pong p 4).length = 4 ∧ (select_ping_pong p 4).Nodup ∧
      p.getD 0 0 ∈ select_ping_pong p 4 ∧ p.getD 6 0 ∈ select_ping_pong p 4) := by
  refine ⟨select_ping_pong_four_eq ordered h, ?_⟩
  intro p hlen hnd
  have hp := select_ping_pong_four_eq p (by omega)
  rw [hlen] at hp
  rw [show (7 : Nat) / 3 = 2 from by norm_num,
    show (7 : Nat) - 1 = 6 from by norm_num,
    show (2 * 7 - 1 : Nat) / 3 = 4 from by norm_num] at hp
  have hget : ∀ i j : Nat, i < p.length → j < p.length → i ≠ j →
      p.getD i 0 ≠ p.getD j 0 := by
    intro i j hi hj hij heq
    rw [List.getD_eq_getElem p 0 hi, List.getD_eq_getElem p 0 hj] at heq
    have hinj := (List.Nodup.get_inj_iff hnd (i := ⟨i, hi⟩) (j := ⟨j, hj⟩)).mp
      (by simpa using heq)
    simp only [Fin.mk.injEq] at hinj
    exact hij hinj
  rw [hp]
  have h02 := hget 0 2 (by omega) (by omega) (by omega)
  have h06 := hget 0 6 (by omega) (by omega) (by omega)
  have h04 := hget 0 4 (by omega) (by omega) (by omega)
  have h26 := hget 2 6 (by omega) (by omega) (by omega)
  have h24 := hget 2 4 (by omega) (by omega) (by omega)
  have h64 := hget 6 4 (by omega) (by omega) (by omega)
  refine ⟨rfl, ?_, ?_, ?_⟩
  · simp only [List.nodup_cons, List.mem_cons, List.mem_singleton, List.not_mem_nil,
      or_false, not_or, List.nodup_nil, and_true]
    exact ⟨⟨h02, h06, h04⟩, ⟨h26, h24⟩, h64, not_false⟩
  · exact List.mem_cons_self _ _
  · exact List.mem_cons_of_mem _ (List.mem_cons_of_mem _ (List.mem_cons_self _ _))

/-- C6 (witness): the selection on the concrete ordered path
`[0, 1, 2, 3, 4, 5, 6]` of length 7. -/
theorem select_ping_pong_four_witness :
    4 < ([0, 1, 2, 3, 4, 5, 6] : List Nat).length ∧
      select_ping_pong [0, 1, 2, 3, 4, 5, 6] 4 = [0, 2, 6, 4] := by
  refine ⟨by norm_num, ?_⟩
  have h := (select_ping_pong_four [0, 1, 2, 3, 4, 5, 6] (by norm_num)).1
  rw [h]
  decide

/-! ### Separator line-centre detection -/

theorem findCentersLoop_eq (l : List Bool) :
    (∀ i s, findCentersLoop l i false s = (runsAux l i).map runMid) ∧
    (∀ i start, findCentersLoop l i true start =
      (start + (i + (l.takeWhile (fun b => b)).length)) / 2 ::
        (runsAux (l.dropWhile (fun b => b)) (i + (l.takeWhile (fun b => b)).length)).map
          runMid) := by
  induction l with
  | nil =>
    constructor
    · intro i s
      simp [findCentersLoop, runsAux]
    · intro i start
      simp [findCentersLoop, runsAux]
  | cons a rest ih =>
    constructor
    · intro i s
      cases a with
      | true =>
        rw [show findCentersLoop (true :: rest) i false s =
            findCentersLoop rest (i + 1) true i from rfl]
        rw [ih.2 (i + 1) i]
        rw [show runsAux (true :: rest) i =
            (i, i + ((rest.takeWhile (fun b => b)).length + 1)) ::
              runsAux (rest.dropWhile (fun b => b))
                (i + ((rest.takeWhile (fun b => b)).length + 1)) from by
          simp [runsAux]]
        rw [List.map_cons]
        have harith : i + 1 + (rest.takeWhile (fun b => b)).length =
            i + ((rest.takeWhile (fun b => b)).length + 1) := by omega
        rw [harith]
        rfl
      | false =>
        rw [show findCentersLoop (false :: rest) i false s =
            findCentersLoop rest (i + 1) false s from rfl]
        rw [ih.1 (i + 1) s]
        rw [show runsAux (false :: rest) i = runsAux rest (i + 1) from by simp [runsAux]]
    · intro i start
      cases a with
      | true =>
        rw [show findCentersLoop (true :: rest) i true start =
            findCentersLoop rest (i + 1) true start from rfl]
        rw [ih.2 (i + 1) start]
        rw [show (true :: rest).takeWhile (fun b => b) =
            true :: rest.takeWhile (fun b => b) from by simp [List.takeWhile_cons]]
        rw [show (true :: rest).dropWhile (fun b => b) =
            rest.dropWhile (fun b => b) from by simp [List.dropWhile_cons]]
        have harith : i + 1 + (rest.takeWhile (fun b => b)).length =
            i + (true :: rest.takeWhile (fun b => b)).length := by
          simp
          omega
        rw [harith]
      | false =>
        rw [show findCentersLoop (false :: rest) i true start =
            (start + i) / 2 :: findCentersLoop rest (i + 1) false start from rfl]
        rw [ih.1 (i + 1) start]
        rw [show (false :: rest).takeWhile (fun b => b) = [] from by
          simp [List.takeWhile_cons]]
        rw [show (false :: rest).dropWhile (fun b => b) = false :: rest from by
          simp [List.dropWhile_cons]]
        simp only [List.length_nil, Nat.add_zero]
        rw [show runsAux (false :: rest) i = runsAux rest (i + 1) from by simp [runsAux]]

theorem runsAux_eq_nil_of_all_false : ∀ (l : List Bool) (i : Nat),
    (∀ b ∈ l, b = false) → runsAux l i = [] := by
  intro l
  induction l with
  | nil =>
    intro i _
    simp [runsAux]
  | cons a rest ih =>
    intro i hall
    have ha : a = false := hall a (List.mem_cons_self _ _)
    subst ha
    rw [show runsAux (false :: rest) i = runsAux rest (i + 1) from by simp [runsAux]]
    exact ih (i + 1) (fun b hb => hall b (List.mem_cons_of_mem _ hb))

/-- C7: `_find_line_centers` returns exactly the nearby-centre merge pass
applied to the midpoints of the maximal contiguous runs of
above-threshold positions of the coverage profile; when no position
exceeds the threshold it returns the empty list (and, being a total
function, it never raises). -/
theorem find_line_centers_spec (ratio : List Rat) (threshold : Rat) :
    find_line_centers ratio threshold 10 =
      mergeCenters 10
        ((maximalRuns (ratio.map fun x => decide (threshold < x))).map runMid) ∧
    ((∀ x ∈ ratio, x ≤ threshold) → find_line_centers ratio threshold 10 = []) := by
  have hmain : find_line_centers ratio threshold 10 =
      mergeCenters 10
        ((maximalRuns (ratio.map fun x => decide (threshold < x))).map runMid) := by
    unfold find_line_centers maximalRuns
    rw [(findCentersLoop_eq (ratio.map fun x => decide (threshold < x))).1 0 0]
  refine ⟨hmain, ?_⟩
  intro hall
  rw [hmain]
  unfold maximalRuns
  rw [runsAux_eq_nil_of_all_false _ 0 ?_]
  · simp [mergeCenters]
  · intro b hb
    rcases List.mem_map.mp hb with ⟨x, hx, rfl⟩
    exact decide_eq_false (not_lt.mpr (hall x hx))

/-- C7 (witness): a profile with no above-threshold positions yields the
empty centre list. -/
theorem find_line_centers_spec_witness :
    (∀ x ∈ ([0, 0, 0] : List Rat), x ≤ 1) ∧
      find_line_centers [0, 0, 0] 1 10 = [] :=
  ⟨by decide, (find_line_centers_spec [0, 0, 0] 1).2 (by decide)⟩

/-! ### Combinatorial best-line selection -/

theorem combinations_mem : ∀ (l : List Int) (k : Nat) (l' : List Int),
    l' ∈ combinations k l ↔ l'.Sublist l ∧ l'.length = k := by
  intro l
  induction l with
  | nil =>
    intro k l'
    cases k with
    | zero =>
      simp only [combinations, List.mem_singleton]
      constructor
      · rintro rfl
        exact ⟨List.nil_sublist _, rfl⟩
      · rintro ⟨_, hlen⟩
        exact List.length_eq_zero.mp hlen
    | succ m =>
      simp only [combinations]
      constructor
      · intro h
        simp at h
      · rintro ⟨hsub, hlen⟩
        have hnil := List.sublist_nil.mp hsub
        subst hnil
        simp at hlen
  | cons x xs ih =>
    intro k l'
    cases k with
    | zero =>
      simp only [combinations, List.mem_singleton]
      constructor
      · rintro rfl
        exact ⟨List.nil_sublist _, rfl⟩
      · rintro ⟨_, hlen⟩
        exact List.length_eq_zero.mp hlen
    | succ m =>
      simp only [combinations, List.mem_append, List.mem_map]
      constructor
      · rintro (⟨t, ht, rfl⟩ | h)
        · have hm := (ih m t).mp ht
          exact ⟨List.Sublist.cons₂ x hm.1, by simp [hm.2]⟩
        · have hm := (ih (m + 1) l').mp h
          exact ⟨List.Sublist.cons x hm.1, hm.2⟩
      · rintro ⟨hsub, hlen⟩
        rcases List.sublist_cons_iff.mp hsub with h | ⟨t, rfl, ht⟩
        · right
          exact (ih (m + 1) l').mpr ⟨h, hlen⟩
        · left
          exact ⟨t, (ih m t).mpr ⟨ht, by simpa using hlen⟩, rfl⟩

theorem foldl_bestLineStep_min (total : Int) :
    ∀ (combos : List (List Int)) (b : List Int) (s : Rat), s = lineScore b total →
      ((combos.foldl (bestLineStep total) (b, some s)).1 = b ∨
        (combos.foldl (bestLineStep total) (b, some s)).1 ∈ combos) ∧
      lineScore (combos.foldl (bestLineStep total) (b, some s)).1 total ≤ s ∧
      ∀ c ∈ combos,
        lineScore (combos.foldl (bestLineStep total) (b, some s)).1 total ≤
          lineScore c total := by
  intro combos
  induction combos with
  | nil =>
    intro b s hs
    subst hs
    exact ⟨Or.inl rfl, le_refl _, fun c hc => absurd hc (List.not_mem_nil c)⟩
  | cons c0 rest ih =>
    intro b s hs
    simp only [List.foldl_cons]
    by_cases hc : lineScore c0 total < s
    · have hstep : bestLineStep total (b, some s) c0 =
          (c0, some (lineScore c0 total)) := by
        simp [bestLineStep, hc]
      rw [hstep]
      have h := ih c0 (lineScore c0 total) rfl
      refine ⟨?_, ?_, ?_⟩
      · rcases h.1 with h1 | h1
        · exact Or.inr (by rw [h1]; exact List.mem_cons_self _ _)
        · exact Or.inr (List.mem_cons_of_mem _ h1)
      · exact le_trans h.2.1 (le_of_lt hc)
      · intro c hcmem
        rcases List.mem_cons.mp hcmem with rfl | hcm
        · exact h.2.1
        · exact h.2.2 c hcm
    · have hstep : bestLineStep total (b, some s) c0 = (b, some s) := by
        simp [bestLineStep, hc]
      rw [hstep]
      have h := ih b s hs
      refine ⟨?_, h.2.1, ?_⟩
      · rcases h.1 with h1 | h1
        · exact Or.inl h1
        · exact Or.inr (List.mem_cons_of_mem _ h1)
      · intro c hcmem
        rcases List.mem_cons.mp hcmem with rfl | hcm
        · exact le_trans h.2.1 (not_lt.mp hc)
        · exact h.2.2 c hcm

/-- C8: when more candidate lines are found than expected,
`_select_best_lines` returns a size-`expected` sublist of the candidates
whose interval-width variance (with `0` and the axis extent appended as
outer boundaries) is minimal over all size-`expected` combinations of
the candidates; when the candidate count is at most `expected` the
candidates are returned unchanged. -/
theorem select_best_lines_spec (candidates : List Int) (expected : Nat) (total : Int) :
    (candidates.length ≤ expected →
      select_best_lines candidates expected total = candidates) ∧
    (expected < candidates.length →
      (select_best_lines candidates expected total).Sublist candidates ∧
      (select_best_lines candidates expected total).length = expected ∧
      ∀ combo : List Int, combo.Sublist candidates → combo.length = expected →
        lineScore (select_best_lines candidates expected total) total ≤
          lineScore combo total) := by
  constructor
  · intro hle
    unfold select_best_lines
    by_cases he : candidates.length = expected
    · rw [if_pos he]
    · rw [if_neg he, if_pos (by omega)]
  · intro hlt
    have htake : candidates.take expected ∈ combinations expected candidates :=
      (combinations_mem candidates expected _).mpr
        ⟨List.take_sublist _ _, by simp; omega⟩
    rcases hcombos : combinations expected candidates with _ | ⟨c0, rest⟩
    · rw [hcombos] at htake
      simp at htake
    · have hsel : select_best_lines candidates expected total =
          ((c0 :: rest).foldl (bestLineStep total) (candidates.take expected, none)).1 := by
        unfold select_best_lines
        rw [if_neg (by omega), if_neg (by omega), hcombos]
      have hfirst : (c0 :: rest).foldl (bestLineStep total)
          (candidates.take expected, none) =
          rest.foldl (bestLineStep total) (c0, some (lineScore c0 total)) := by
        simp [List.foldl_cons, bestLineStep]
      have h := foldl_bestLineStep_min total rest c0 (lineScore c0 total) rfl
      have hmem : select_best_lines candidates expected total ∈
          combinations expected candidates := by
        rw [hsel, hfirst, hcombos]
        rcases h.1 with h1 | h1
        · rw [h1]
          exact List.mem_cons_self _ _
        · exact List.mem_cons_of_mem _ h1
      have hms := (combinations_mem candidates expected _).mp hmem
      refine ⟨hms.1, hms.2, ?_⟩
      intro combo hsub hlen
      have hcm : combo ∈ combinations expected candidates :=
        (combinations_mem candidates expected combo).mpr ⟨hsub, hlen⟩
      rw [hcombos] at hcm
      rw [hsel, hfirst]
      rcases List.mem_cons.mp hcm with rfl | hcm2
      · exact h.2.1
      · exact h.2.2 combo hcm2

/-- C8 (witness): three candidate lines reduced to the best two. -/
theorem select_best_lines_spec_witness :
    2 < ([10, 50, 90] : List Int).length ∧
      (select_best_lines [10, 50, 90] 2 100).Sublist [10, 50, 90] ∧
      (select_best_lines [10, 50, 90] 2 100).length = 2 :=
  ⟨by norm_num, ((select_best_lines_spec [10, 50, 90] 2 100).2 (by norm_num)).1,
    ((select_best_lines_spec [10, 50, 90] 2 100).2 (by norm_num)).2.1⟩

/-! ### Cell normalisation of a fully transparent input -/

theorem blendChannel_zero_mask (a b : Nat) : blendChannel a b 0 = a := by
  unfold blendChannel
  omega

theorem paste_transparent (overlay : ImageRGBA) (ox oy : Int) (w h : Nat)
    (hov : ∀ x y, pxAlpha (overlay.px x y) = 0) :
    (paste (newImage w h (0, 0, 0, 0)) overlay ox oy).width = w ∧
    (paste (newImage w h (0, 0, 0, 0)) overlay ox oy).height = h ∧
    ∀ x y, pxAlpha ((paste (newImage w h (0, 0, 0, 0)) overlay ox oy).px x y) = 0 := by
  refine ⟨rfl, rfl, ?_⟩
  intro x y
  unfold paste newImage
  dsimp only
  by_cases hin : 0 ≤ (x : Int) - ox ∧ (x : Int) - ox < (overlay.width : Int) ∧
      0 ≤ (y : Int) - oy ∧ (y : Int) - oy < (overlay.height : Int)
  · rw [if_pos hin]
    have hq := hov ((x : Int) - ox).toNat ((y : Int) - oy).toNat
    show blendChannel 0
      (pxAlpha (overlay.px ((x : Int) - ox).toNat ((y : Int) - oy).toNat))
      (pxAlpha (overlay.px ((x : Int) - ox).toNat ((y : Int) - oy).toNat)) = 0
    rw [hq]
    exact blendChannel_zero_mask 0 0
  · rw [if_neg hin]
    rfl

/-- C9: for every fully transparent input image (every in-bounds pixel
has alpha 0), every scale factor, and every resampling primitive that
sends fully transparent images to fully transparent images of the
requested size (true of any convex-weight resampler, in particular PIL's
LANCZOS), `normalize_frame` returns a fully transparent 80×80 canvas;
being a total function, it does not raise. -/
theorem normalize_frame_transparent (resizeFn : ImageRGBA → Nat → Nat → ImageRGBA)
    (img : ImageRGBA) (scale : Rat)
    (himg : ∀ x y, x < img.width → y < img.height → pxAlpha (img.px x y) = 0)
    (hresize : ∀ (im : ImageRGBA) (w h : Nat),
      (∀ x y, pxAlpha (im.px x y) = 0) →
      (resizeFn im w h).width = w ∧ (resizeFn im w h).height = h ∧
        ∀ x y, pxAlpha ((resizeFn im w h).px x y) = 0) :
    (normalize_frame resizeFn img scale).width = 80 ∧
    (normalize_frame resizeFn img scale).height = 80 ∧
    ∀ x y, pxAlpha ((normalize_frame resizeFn img scale).px x y) = 0 := by
  have hcrop : ∀ (x0 y0 x1 y1 x y : Nat),
      pxAlpha ((crop img x0 y0 x1 y1).px x y) = 0 := by
    intro x0 y0 x1 y1 x y
    unfold crop
    dsimp only
    by_cases hin : x0 + x < img.width ∧ y0 + y < img.height
    · rw [if_pos hin]
      exact himg _ _ hin.1 hin.2
    · rw [if_neg hin]
      rfl
  unfold normalize_frame
  exact paste_transparent _ _ _ 80 80
    ((hresize _ _ _ (fun a b => hcrop _ _ _ _ a b)).2.2)

/-- A trivially transparency-preserving resampler used in the C9
witness. -/
def constTransparentResize : ImageRGBA → Nat → Nat → ImageRGBA :=
  fun _ w h => ⟨w, h, fun _ _ => (0, 0, 0, 0)⟩

/-- A fully transparent 2×2 test image used in the C9 witness. -/
def transparentTestImage : ImageRGBA :=
  ⟨2, 2, fun _ _ => (9, 9, 9, 0)⟩

/-- C9 (witness): the theorem applied to a concrete transparent image,
scale 1, and a concrete transparency-preserving resampler. -/
theorem normalize_frame_transparent_witness :
    (normalize_frame constTransparentResize transparentTestImage 1).width = 80 ∧
      (normalize_frame constTransparentResize transparentTestImage 1).height = 80 ∧
      pxAlpha ((normalize_frame constTransparentResize transparentTestImage 1).px 40 53) = 0 := by
  have h := normalize_frame_transparent constTransparentResize transparentTestImage 1
    (fun x y _ _ => rfl) (fun im w h _ => ⟨rfl, rfl, fun x y => rfl⟩)
  exact ⟨h.1, h.2.1, h.2.2 40 53⟩
